import Mathlib

/-!
Verification of the stock-simulator order-book engine.

Shallow embedding of the Go sources:
  * `exchange/binarytree.go` — the AVL tree `TxnBST` of transactions
    (`insertNode`, `removeNode`, `searchNode`, `InorderTraversal`,
    `findMinValue`, rotations and height bookkeeping);
  * `exchange/transaction.go` — the `Transaction` value type;
  * `exchange/exchange.go` — `NewExchange`, `AcceptTrades` (one step),
    `GetOrderBook`, and one matching cycle of `ProcessTrades`.

Machine integers (`int`, `int32`) are modelled as `Int`: the Go code
performs no arithmetic on amounts besides comparisons, and the height
arithmetic (`h + 1`) stays far below the `int` range on any tree the
program can build, so overflow is not observable.
-/

namespace StockSim

/-- The `Transaction` struct of `transaction.go`.  `TransactionAmtDataType`
is `int32`, modelled as `Int`; the Go field `Type` is named `TxnType`
here because `Type` is reserved in Lean. -/
structure Transaction where
  ID : String
  TxnType : String
  Amount : Int
deriving DecidableEq, Repr, Inhabited

/-- `BuyTransactionType` constant of `transaction.go`. -/
def BuyTransactionType : String := "BUY"

/-- `SellTransactionType` constant of `transaction.go`. -/
def SellTransactionType : String := "SELL"

/-- The `treeNode` pointer structure of `binarytree.go`: a `nil` pointer
or a node carrying `Value`, `Left`, `Right` and the stored `Height`. -/
inductive TreeNode where
  | nil : TreeNode
  | node (left : TreeNode) (value : Transaction) (right : TreeNode) (h : Int) : TreeNode
deriving DecidableEq, Repr

namespace TreeNode

/-- `height` of `binarytree.go`: a nil node has height -1, otherwise the
stored `Height` field is returned. -/
def height : TreeNode → Int
  | nil => -1
  | node _ _ _ h => h

/-- Rebuilding a node after `updateHeight` of `binarytree.go`: the stored
height becomes `leftHeight + 1` if `leftHeight > rightHeight`, else
`rightHeight + 1`. -/
def mkNode (l : TreeNode) (x : Transaction) (r : TreeNode) : TreeNode :=
  node l x r (if height l > height r then height l + 1 else height r + 1)

/-- `balanceFactor` of `binarytree.go`: height of left minus height of
right; 0 for a nil node. -/
def balanceFactor : TreeNode → Int
  | nil => 0
  | node l _ r _ => height l - height r

/-- `Value` field access; the Go code dereferences the pointer, which is
only reached on non-nil nodes, so the `nil` case returns the default. -/
def treeValue : TreeNode → Transaction
  | nil => default
  | node _ x _ _ => x

/-- `rotateRight` of `binarytree.go`; it is only invoked on nodes whose
left child is non-nil, so the fallback case returns the input. Heights
of the two rearranged nodes are recomputed exactly as the two
`updateHeight` calls do. -/
def rotateRight : TreeNode → TreeNode
  | node (node t1 x t2 _) y t3 _ => mkNode t1 x (mkNode t2 y t3)
  | t => t

/-- `rotateLeft` of `binarytree.go`; only invoked on nodes whose right
child is non-nil, so the fallback case returns the input. -/
def rotateLeft : TreeNode → TreeNode
  | node t1 x (node t2 y t3 _) _ => mkNode (mkNode t1 x t2) y t3
  | t => t

/-- The rebalancing tail of `insertNode` in `binarytree.go`: after the
recursive insertion and `updateHeight`, the four cases Left-Left,
Right-Right, Left-Right and Right-Left are tested in source order,
comparing the inserted amount against the child's value. -/
def insertRebalance (l : TreeNode) (x : Transaction) (r : TreeNode)
    (v : Transaction) : TreeNode :=
  if balanceFactor (mkNode l x r) > 1 ∧ v.Amount ≤ (treeValue l).Amount then
    rotateRight (mkNode l x r)
  else if balanceFactor (mkNode l x r) < -1 ∧ v.Amount > (treeValue r).Amount then
    rotateLeft (mkNode l x r)
  else if balanceFactor (mkNode l x r) > 1 ∧ v.Amount > (treeValue l).Amount then
    rotateRight (mkNode (rotateLeft l) x r)
  else if balanceFactor (mkNode l x r) < -1 ∧ v.Amount ≤ (treeValue r).Amount then
    rotateLeft (mkNode l x (rotateRight r))
  else mkNode l x r

/-- `insertNode` of `binarytree.go`: standard BST insertion (`<=` goes
left), then height update and AVL rebalancing. -/
def insertNode : TreeNode → Transaction → TreeNode
  | nil, v => node nil v nil 0
  | node l x r _, v =>
    if v.Amount ≤ x.Amount then insertRebalance (insertNode l v) x r v
    else insertRebalance l x (insertNode r v) v

/-- `Insert` of `binarytree.go`, acting on the root of the `TxnBST`. -/
def Insert (t : TreeNode) (v : Transaction) : TreeNode := insertNode t v

/-- `searchNode` of `binarytree.go`: descend by amount, return the value
on an exact amount match. (The Go code checks the child for nil before
recursing; recursing into the nil child returns nil identically.) -/
def searchNode : TreeNode → Int → Option Transaction
  | nil, _ => none
  | node l x r _, v =>
    if v = x.Amount then some x
    else if v < x.Amount then searchNode l v
    else searchNode r v

/-- `Search` of `binarytree.go`. -/
def Search (t : TreeNode) (v : Int) : Option Transaction := searchNode t v

/-- `inorder` of `binarytree.go`: left subtree, node value, right
subtree. -/
def inorder : TreeNode → List Transaction
  | nil => []
  | node l x r _ => inorder l ++ x :: inorder r

/-- `InorderTraversal` of `binarytree.go`. -/
def InorderTraversal (t : TreeNode) : List Transaction := inorder t

/-- `findMinValue` of `binarytree.go`: follow `Left` pointers to the
leftmost node and return its value. Only called on non-nil trees; the
nil case returns the default. -/
def findMinValue : TreeNode → Transaction
  | nil => default
  | node nil x _ _ => x
  | node (node a y b h) _ _ _ => findMinValue (node a y b h)

/-- The rebalancing tail of `removeNode` in `binarytree.go`: after the
recursive removal and `updateHeight`, the four cases are selected by the
sign of the child's balance factor, in source order. -/
def removeRebalance (l : TreeNode) (x : Transaction) (r : TreeNode) : TreeNode :=
  if balanceFactor (mkNode l x r) > 1 ∧ balanceFactor l ≥ 0 then
    rotateRight (mkNode l x r)
  else if balanceFactor (mkNode l x r) > 1 ∧ balanceFactor l < 0 then
    rotateRight (mkNode (rotateLeft l) x r)
  else if balanceFactor (mkNode l x r) < -1 ∧ balanceFactor r ≤ 0 then
    rotateLeft (mkNode l x r)
  else if balanceFactor (mkNode l x r) < -1 ∧ balanceFactor r > 0 then
    rotateLeft (mkNode l x (rotateRight r))
  else mkNode l x r

/-- `removeNode` of `binarytree.go`: BST deletion by amount; at an
amount match with a different `ID` the search continues in the right
subtree; a two-child deletion promotes the in-order successor
(`findMinValue` of the right subtree) and removes it from the right
subtree. The three leaf/one-child cases return early without
rebalancing, exactly as the Go `return` statements do. -/
def removeNode : TreeNode → Transaction → TreeNode
  | nil, _ => nil
  | node l x r _, v =>
    if v.Amount < x.Amount then removeRebalance (removeNode l v) x r
    else if v.Amount > x.Amount then removeRebalance l x (removeNode r v)
    else if x.ID ≠ v.ID then removeRebalance l x (removeNode r v)
    else
      match l, r with
      | nil, _ => r
      | node a y b h, nil => node a y b h
      | node a y b h, node c z d h2 =>
        let m := findMinValue (node c z d h2)
        removeRebalance (node a y b h) m (removeNode (node c z d h2) m)

/-- `Remove` of `binarytree.go`, acting on the root of the `TxnBST`. -/
def Remove (t : TreeNode) (v : Transaction) : TreeNode := removeNode t v

end TreeNode

open TreeNode

/-- The `Exchange` struct of `exchange.go`, restricted to the state the
matching logic reads and writes: `LastTradedPrice`, `BuyQ` and `SellQ`.
The channel, mutexes and callback list are concurrency plumbing; the
callbacks are modelled by returning the list of prices that
`notifyPriceUpdate` dispatches. -/
structure Exchange where
  LastTradedPrice : Int
  BuyQ : TreeNode
  SellQ : TreeNode
deriving DecidableEq, Repr

/-- `NewExchange` of `exchange.go`: an initial last traded price below 1
is clamped to 1; both books start empty. -/
def NewExchange (ltp : Int) : Exchange :=
  { LastTradedPrice := if ltp < 1 then 1 else ltp, BuyQ := .nil, SellQ := .nil }

/-- One iteration of the `AcceptTrades` loop in `exchange.go` for a single
inbound transaction: a price below 1 is rejected (books untouched), a
`BUY` goes into `BuyQ`, a `SELL` into `SellQ`, and any other type is
dropped with a warning. -/
def acceptTradeStep (e : Exchange) (txn : Transaction) : Exchange :=
  if txn.Amount < 1 then e
  else if txn.TxnType = BuyTransactionType then { e with BuyQ := e.BuyQ.Insert txn }
  else if txn.TxnType = SellTransactionType then { e with SellQ := e.SellQ.Insert txn }
  else e

/-- The inner loop of the matching phase of `ProcessTrades`: scan the
remaining sell orders in ascending order for the first with
`buy.Amount >= sell.Amount`; on a hit return it together with the list
with that one entry spliced out (`append(sellOrders[:i], sellOrders[i+1:]...)`
followed by `break`). -/
def findFirstSellMatch (b : Transaction) :
    List Transaction → Option (Transaction × List Transaction)
  | [] => none
  | s :: rest =>
    if b.Amount ≥ s.Amount then some (s, rest)
    else
      match findFirstSellMatch b rest with
      | none => none
      | some (m, rest') => some (m, s :: rest')

/-- The pair-collection loop of `ProcessTrades`: for each buy order in
descending-price order, consume the first matching sell order. -/
def matchOrders : List Transaction → List Transaction → List (Transaction × Transaction)
  | [], _ => []
  | b :: bs, sells =>
    match findFirstSellMatch b sells with
    | none => matchOrders bs sells
    | some (m, sells') => (b, m) :: matchOrders bs sells'

/-- Settlement of one matched pair in `ProcessTrades`: the trade price is
the sell price clamped up to 1, it becomes the `LastTradedPrice`, the
price is dispatched to the subscribers (second component), and both
orders are removed from their books. -/
def processPair (e : Exchange) (pair : Transaction × Transaction) : Exchange × Int :=
  let tradePrice := if pair.2.Amount < 1 then 1 else pair.2.Amount
  ({ LastTradedPrice := tradePrice,
     BuyQ := e.BuyQ.Remove pair.1,
     SellQ := e.SellQ.Remove pair.2 }, tradePrice)

/-- One step of the settlement loop: apply `processPair` and append the
dispatched price to the notification log. -/
def settleStep (acc : Exchange × List Int) (pair : Transaction × Transaction) :
    Exchange × List Int :=
  ((processPair acc.1 pair).1, acc.2 ++ [(processPair acc.1 pair).2])

/-- One cycle of `ProcessTrades` in `exchange.go` (the body run on each
tick once the lock is acquired): snapshot both books, reverse the buy
snapshot to descending order, collect the matched pairs, then settle
them in pairing order. Returns the new exchange state and the list of
prices handed to `notifyPriceUpdate`, in dispatch order. -/
def processTradesCycle (e : Exchange) : Exchange × List Int :=
  (matchOrders ((InorderTraversal e.BuyQ).reverse)
    (InorderTraversal e.SellQ)).foldl settleStep (e, [])

/-- The `OrderBookEntry` struct of `exchange.go`; the Go field `Type` is
named `TxnType` here. -/
structure OrderBookEntry where
  ID : String
  Price : Int
  TxnType : String
deriving DecidableEq, Repr

/-- The `OrderBook` struct of `exchange.go` without the `Timestamp`
field (wall-clock time is outside the embedding). -/
structure OrderBook where
  BuyOrders : List OrderBookEntry
  SellOrders : List OrderBookEntry
deriving DecidableEq, Repr

/-- Building one `OrderBookEntry` from an order, as the loops in
`GetOrderBook` do: copy `ID`, `Amount` (as the price) and `Type`. -/
def entryOfTxn (o : Transaction) : OrderBookEntry :=
  { ID := o.ID, Price := o.Amount, TxnType := o.TxnType }

/-- Insert one element into a list sorted by the Boolean comparison
`le`; building block of the model of Go's `sort.Slice`. -/
def insertLe (le : α → α → Bool) (a : α) : List α → List α
  | [] => [a]
  | b :: bs => if le a b then a :: b :: bs else b :: insertLe le a bs

/-- Insertion sort by the Boolean comparison `le`, modelling Go's
`sort.Slice` (the claims about `GetOrderBook` depend only on the output
being sorted and a permutation of the input, which any correct
`sort.Slice` call guarantees). -/
def sortLe (le : α → α → Bool) : List α → List α
  | [] => []
  | a :: as => insertLe le a (sortLe le as)

/-- The buy-side comparator of `GetOrderBook` (`sort.Slice` with
`Price[i] > Price[j]`, i.e. highest first): `a` may come before `b`
when `b.Price ≤ a.Price`. -/
def buyEntryLe (a b : OrderBookEntry) : Bool := decide (b.Price ≤ a.Price)

/-- The sell-side comparator of `GetOrderBook` (lowest price first). -/
def sellEntryLe (a b : OrderBookEntry) : Bool := decide (a.Price ≤ b.Price)

/-- `GetOrderBook` of `exchange.go`: map both books' traversals to
entries, sort the buy side descending and the sell side ascending by
price, truncate each side to 10 entries when longer. The method only
reads the books under the lock; the unchanged exchange is returned as
the second component to make that explicit. -/
def GetOrderBook (e : Exchange) : OrderBook × Exchange :=
  ({ BuyOrders :=
      if (sortLe buyEntryLe ((InorderTraversal e.BuyQ).map entryOfTxn)).length > 10
      then (sortLe buyEntryLe ((InorderTraversal e.BuyQ).map entryOfTxn)).take 10
      else sortLe buyEntryLe ((InorderTraversal e.BuyQ).map entryOfTxn),
     SellOrders :=
      if (sortLe sellEntryLe ((InorderTraversal e.SellQ).map entryOfTxn)).length > 10
      then (sortLe sellEntryLe ((InorderTraversal e.SellQ).map entryOfTxn)).take 10
      else sortLe sellEntryLe ((InorderTraversal e.SellQ).map entryOfTxn) }, e)

/-- The tree obtained from the empty book by a sequence of `Insert`
operations, in order. -/
def insertList (xs : List Transaction) : TreeNode :=
  xs.foldl TreeNode.Insert .nil

/-- Non-decreasing amount order on transactions. -/
def amtLe (a b : Transaction) : Prop := a.Amount ≤ b.Amount

namespace TreeNode

theorem inorder_mkNode (l : TreeNode) (x : Transaction) (r : TreeNode) :
    inorder (mkNode l x r) = inorder l ++ x :: inorder r := rfl

theorem height_mkNode (l : TreeNode) (x : Transaction) (r : TreeNode) :
    height (mkNode l x r) = 1 + max (height l) (height r) := by
  simp only [mkNode, height]
  split <;> omega

theorem inorder_rotateRight (t : TreeNode) : inorder (rotateRight t) = inorder t := by
  match t with
  | nil => rfl
  | node nil x r h => rfl
  | node (node t1 y t2 h1) x t3 h =>
    simp [rotateRight, inorder, inorder_mkNode]

theorem inorder_rotateLeft (t : TreeNode) : inorder (rotateLeft t) = inorder t := by
  match t with
  | nil => rfl
  | node l x nil h => rfl
  | node t1 x (node t2 y t3 h1) h =>
    simp [rotateLeft, inorder, inorder_mkNode]

theorem inorder_insertRebalance (l : TreeNode) (x : Transaction) (r : TreeNode)
    (v : Transaction) :
    inorder (insertRebalance l x r v) = inorder l ++ x :: inorder r := by
  unfold insertRebalance
  split_ifs <;>
    simp [inorder_rotateRight, inorder_rotateLeft, inorder_mkNode]

theorem inorder_removeRebalance (l : TreeNode) (x : Transaction) (r : TreeNode) :
    inorder (removeRebalance l x r) = inorder l ++ x :: inorder r := by
  unfold removeRebalance
  split_ifs <;>
    simp [inorder_rotateRight, inorder_rotateLeft, inorder_mkNode]

theorem inorder_insertNode_perm (t : TreeNode) (v : Transaction) :
    List.Perm (inorder (insertNode t v)) (v :: inorder t) := by
  induction t with
  | nil => simp [insertNode, inorder]
  | node l x r h ihl ihr =>
    simp only [insertNode]
    split
    · rw [inorder_insertRebalance]
      exact (ihl.append_right _).trans (List.Perm.refl _)
    · rw [inorder_insertRebalance]
      refine List.Perm.trans (List.Perm.append_left _ (List.Perm.cons _ ihr)) ?_
      have h1 : inorder l ++ x :: (v :: inorder r)
          = (inorder l ++ [x]) ++ v :: inorder r := by simp
      have h2 : v :: ((inorder l ++ [x]) ++ inorder r)
          = v :: inorder (node l x r h) := by simp [inorder]
      rw [h1]
      exact h2 ▸ List.perm_middle

theorem amtLe_trans {a b c : Transaction} (h1 : amtLe a b) (h2 : amtLe b c) :
    amtLe a c := Int.le_trans h1 h2

theorem pairwise_inorder_insertNode (t : TreeNode) (v : Transaction)
    (hs : (inorder t).Pairwise amtLe) :
    (inorder (insertNode t v)).Pairwise amtLe := by
  induction t with
  | nil => simp [insertNode, inorder]
  | node l x r h ihl ihr =>
    simp only [inorder, List.pairwise_append, List.pairwise_cons] at hs
    obtain ⟨hl, ⟨hxr, hr⟩, hcross⟩ := hs
    simp only [insertNode]
    split
    · rename_i hle
      rw [inorder_insertRebalance]
      rw [List.pairwise_append]
      refine ⟨ihl hl, ?_, ?_⟩
      · exact List.pairwise_cons.2 ⟨hxr, hr⟩
      · intro a ha b hb
        have ha' : a = v ∨ a ∈ inorder l :=
          by simpa using (inorder_insertNode_perm l v).mem_iff.1 ha
        rcases ha' with rfl | ha'
        · rcases List.mem_cons.1 hb with rfl | hb'
          · exact hle
          · exact amtLe_trans hle (hxr _ hb')
        · exact hcross a ha' b hb
    · rename_i hle
      have hxv : amtLe x v := le_of_lt (not_le.mp hle)
      rw [inorder_insertRebalance]
      rw [List.pairwise_append]
      refine ⟨hl, ?_, ?_⟩
      · rw [List.pairwise_cons]
        refine ⟨?_, ihr hr⟩
        intro b hb
        have hb' : b = v ∨ b ∈ inorder r :=
          by simpa using (inorder_insertNode_perm r v).mem_iff.1 hb
        rcases hb' with rfl | hb'
        · exact hxv
        · exact hxr _ hb'
      · intro a ha b hb
        rcases List.mem_cons.1 hb with rfl | hb'
        · exact hcross a ha b (List.mem_cons_self _ _)
        · have hb'' : b = v ∨ b ∈ inorder r :=
            by simpa using (inorder_insertNode_perm r v).mem_iff.1 hb'
          have hax : amtLe a x := hcross a ha x (List.mem_cons_self _ _)
          rcases hb'' with rfl | hb''
          · exact amtLe_trans hax hxv
          · exact hcross a ha b (List.mem_cons_of_mem _ hb'')

end TreeNode

theorem pairwise_inorder_insertList (xs : List Transaction) :
    ((insertList xs).inorder).Pairwise amtLe := by
  have key : ∀ (ys : List Transaction) (t : TreeNode),
      (t.inorder).Pairwise amtLe →
      ((ys.foldl TreeNode.Insert t).inorder).Pairwise amtLe := by
    intro ys
    induction ys with
    | nil => intro t ht; simpa using ht
    | cons y ys ih =>
      intro t ht
      exact ih _ (TreeNode.pairwise_inorder_insertNode t y ht)
  exact key xs .nil (by simp [TreeNode.inorder])

namespace TreeNode

theorem searchNode_eq_some (t : TreeNode) (p : Int) (o : Transaction)
    (h : searchNode t p = some o) : o.Amount = p ∧ o ∈ inorder t := by
  induction t with
  | nil => simp [searchNode] at h
  | node l x r hh ihl ihr =>
    simp only [searchNode] at h
    split at h
    · rename_i hpx
      obtain rfl : x = o := by simpa using h
      exact ⟨hpx.symm, by simp [inorder]⟩
    · split at h
      · obtain ⟨h1, h2⟩ := ihl h
        exact ⟨h1, by simp [inorder, h2]⟩
      · obtain ⟨h1, h2⟩ := ihr h
        exact ⟨h1, by simp [inorder, h2]⟩

theorem searchNode_finds (t : TreeNode) (p : Int)
    (hs : (inorder t).Pairwise amtLe) (y : Transaction)
    (hy : y ∈ inorder t) (hyp : y.Amount = p) :
    ∃ o, searchNode t p = some o ∧ o.Amount = p := by
  induction t with
  | nil => simp [inorder] at hy
  | node l x r hh ihl ihr =>
    simp only [inorder, List.pairwise_append, List.pairwise_cons] at hs
    obtain ⟨hl, ⟨hxr, hr⟩, hcross⟩ := hs
    simp only [searchNode]
    split
    · exact ⟨x, rfl, by omega⟩
    · rename_i hne
      simp only [inorder, List.mem_append, List.mem_cons] at hy
      split
      · rename_i hlt
        rcases hy with hy | hy | hy
        · exact ihl hl hy
        · exact absurd (hy ▸ hyp) (fun hc => hne hc.symm)
        · have hcontra : amtLe x y := hxr _ hy
          exfalso; unfold amtLe at hcontra; omega
      · rename_i hge
        rcases hy with hy | hy | hy
        · have hcontra : amtLe y x := hcross y hy x (List.mem_cons_self _ _)
          exfalso; unfold amtLe at hcontra; omega
        · exact absurd (hy ▸ hyp) (fun hc => hne hc.symm)
        · exact ihr hr hy

end TreeNode

namespace TreeNode

theorem insertNode_le (l : TreeNode) (x : Transaction) (r : TreeNode) (h : Int)
    (v : Transaction) (hv : v.Amount ≤ x.Amount) :
    insertNode (node l x r h) v = insertRebalance (insertNode l v) x r v := by
  rw [insertNode.eq_def]
  simp only []
  rw [if_pos hv]

theorem insertNode_gt (l : TreeNode) (x : Transaction) (r : TreeNode) (h : Int)
    (v : Transaction) (hv : x.Amount < v.Amount) :
    insertNode (node l x r h) v = insertRebalance l x (insertNode r v) v := by
  rw [insertNode.eq_def]
  simp only []
  rw [if_neg (by omega)]

theorem removeNode_lt (l : TreeNode) (x : Transaction) (r : TreeNode) (h : Int)
    (v : Transaction) (hv : v.Amount < x.Amount) :
    removeNode (node l x r h) v = removeRebalance (removeNode l v) x r := by
  rw [removeNode.eq_def]
  simp only []
  rw [if_pos hv]

theorem removeNode_gt (l : TreeNode) (x : Transaction) (r : TreeNode) (h : Int)
    (v : Transaction) (hv : x.Amount < v.Amount) :
    removeNode (node l x r h) v = removeRebalance l x (removeNode r v) := by
  rw [removeNode.eq_def]
  simp only []
  rw [if_neg (by omega), if_pos (by omega)]

theorem removeNode_eq_ne (l : TreeNode) (x : Transaction) (r : TreeNode) (h : Int)
    (v : Transaction) (hv : v.Amount = x.Amount) (hid : x.ID ≠ v.ID) :
    removeNode (node l x r h) v = removeRebalance l x (removeNode r v) := by
  rw [removeNode.eq_def]
  simp only []
  rw [if_neg (by omega), if_neg (by omega), if_pos hid]

theorem removeNode_hit_nil_left (x : Transaction) (r : TreeNode) (h : Int)
    (v : Transaction) (hv : v.Amount = x.Amount) (hid : x.ID = v.ID) :
    removeNode (node nil x r h) v = r := by
  rw [removeNode.eq_def]
  simp only []
  rw [if_neg (by omega), if_neg (by omega), if_neg (by simp [hid])]

theorem removeNode_hit_nil_right (a : TreeNode) (y : Transaction) (b : TreeNode)
    (h1 : Int) (x : Transaction) (h : Int) (v : Transaction)
    (hv : v.Amount = x.Amount) (hid : x.ID = v.ID) :
    removeNode (node (node a y b h1) x nil h) v = node a y b h1 := by
  rw [removeNode.eq_def]
  simp only []
  rw [if_neg (by omega), if_neg (by omega), if_neg (by simp [hid])]

theorem removeNode_hit_two (a : TreeNode) (y : Transaction) (b : TreeNode)
    (h1 : Int) (x : Transaction) (c : TreeNode) (z : Transaction) (d : TreeNode)
    (h2 : Int) (h : Int) (v : Transaction)
    (hv : v.Amount = x.Amount) (hid : x.ID = v.ID) :
    removeNode (node (node a y b h1) x (node c z d h2) h) v
      = removeRebalance (node a y b h1) (findMinValue (node c z d h2))
          (removeNode (node c z d h2) (findMinValue (node c z d h2))) := by
  rw [removeNode.eq_def]
  simp only []
  rw [if_neg (by omega), if_neg (by omega), if_neg (by simp [hid])]

theorem findMinValue_mem (t : TreeNode) (ht : t ≠ nil) :
    findMinValue t ∈ inorder t := by
  induction t with
  | nil => exact absurd rfl ht
  | node l x r h ihl ihr =>
    cases l with
    | nil => simp [findMinValue, inorder]
    | node a y b h1 =>
      have hmem : findMinValue (node a y b h1) ∈ inorder (node a y b h1) :=
        ihl (by simp)
      show findMinValue (node a y b h1)
        ∈ inorder (node a y b h1) ++ x :: inorder r
      exact List.mem_append_left _ hmem

end TreeNode

/-- All orders in the tree carry pairwise-distinct `ID`s (the program
guarantees this: `generateID` derives IDs from distinct nanosecond
timestamps). -/
def idsNodup (t : TreeNode) : Prop :=
  ((t.inorder).map Transaction.ID).Nodup

theorem idsNodup_node {l : TreeNode} {x : Transaction} {r : TreeNode} {h : Int}
    (hn : idsNodup (.node l x r h)) :
    idsNodup l ∧ idsNodup r
      ∧ (∀ y ∈ l.inorder, y.ID ≠ x.ID) ∧ (∀ y ∈ r.inorder, y.ID ≠ x.ID) := by
  unfold idsNodup at hn ⊢
  simp only [TreeNode.inorder, List.map_append, List.map_cons,
    List.nodup_append, List.nodup_cons] at hn
  obtain ⟨h1, ⟨h2, h3⟩, h4⟩ := hn
  refine ⟨h1, h3, ?_, ?_⟩
  · intro y hy hc
    exact h4 (List.mem_map_of_mem _ hy) (by simp [hc])
  · intro y hy hc
    exact h2 (hc ▸ List.mem_map_of_mem Transaction.ID hy)

theorem remove_mem_preserved (t : TreeNode) :
    ∀ (v y : Transaction), idsNodup t → y ∈ t.inorder → y.ID ≠ v.ID →
      y ∈ (t.removeNode v).inorder := by
  induction t with
  | nil => intro v y _ hy _; simp [TreeNode.inorder] at hy
  | node l x r h ihl ihr =>
    intro v y hn hy hne
    obtain ⟨hnl, hnr, hlx, hrx⟩ := idsNodup_node hn
    simp only [TreeNode.inorder, List.mem_append, List.mem_cons] at hy
    rcases Int.lt_trichotomy v.Amount x.Amount with hlt | heq | hgt
    · rw [TreeNode.removeNode_lt l x r h v hlt, TreeNode.inorder_removeRebalance]
      simp only [List.mem_append, List.mem_cons]
      rcases hy with hy | hy | hy
      · exact Or.inl (ihl v y hnl hy hne)
      · exact Or.inr (Or.inl hy)
      · exact Or.inr (Or.inr hy)
    · by_cases hid : x.ID = v.ID
      · -- exact hit at this node
        cases l with
        | nil =>
          rw [TreeNode.removeNode_hit_nil_left x r h v heq hid]
          rcases hy with hy | hy | hy
          · simp [TreeNode.inorder] at hy
          · exact absurd (hy ▸ hid) hne
          · exact hy
        | node a y2 b h1 =>
          cases r with
          | nil =>
            rw [TreeNode.removeNode_hit_nil_right a y2 b h1 x h v heq hid]
            rcases hy with hy | hy | hy
            · exact hy
            · exact absurd (hy ▸ hid) hne
            · simp [TreeNode.inorder] at hy
          | node c z d h2 =>
            rw [TreeNode.removeNode_hit_two a y2 b h1 x c z d h2 h v heq hid]
            rw [TreeNode.inorder_removeRebalance]
            simp only [List.mem_append, List.mem_cons]
            rcases hy with hy | hy | hy
            · exact Or.inl hy
            · exact absurd (hy ▸ hid) hne
            · -- y sits in the right subtree
              by_cases hym : y.ID = (TreeNode.findMinValue (.node c z d h2)).ID
              · -- then y is the promoted successor itself
                have hmmem : TreeNode.findMinValue (.node c z d h2)
                    ∈ (TreeNode.node c z d h2).inorder :=
                  TreeNode.findMinValue_mem _ (by simp)
                have hinj := List.inj_on_of_nodup_map
                  (hnr : ((TreeNode.node c z d h2).inorder).map Transaction.ID
                    |>.Nodup)
                have : y = TreeNode.findMinValue (.node c z d h2) :=
                  hinj hy hmmem hym
                exact Or.inr (Or.inl this)
              · exact Or.inr (Or.inr (ihr _ y hnr hy hym))
      · -- same amount, different identity: descend right
        rw [TreeNode.removeNode_eq_ne l x r h v heq hid,
          TreeNode.inorder_removeRebalance]
        simp only [List.mem_append, List.mem_cons]
        rcases hy with hy | hy | hy
        · exact Or.inl hy
        · exact Or.inr (Or.inl hy)
        · exact Or.inr (Or.inr (ihr v y hnr hy hne))
    · rw [TreeNode.removeNode_gt l x r h v hgt, TreeNode.inorder_removeRebalance]
      simp only [List.mem_append, List.mem_cons]
      rcases hy with hy | hy | hy
      · exact Or.inl hy
      · exact Or.inr (Or.inl hy)
      · exact Or.inr (Or.inr (ihr v y hnr hy hne))

/-- Claim C1 fails as stated: with three same-price orders inserted into
the empty tree (ids 1, 2, 3, price 100), removing the third-inserted
order first leaves the tree completely unchanged — its entry is not
deleted, so the orders are not removable in an arbitrary order. -/
theorem claim_C1_counterexample :
    TreeNode.Remove
        (insertList [⟨"1", "BUY", 100⟩, ⟨"2", "BUY", 100⟩, ⟨"3", "BUY", 100⟩])
        ⟨"3", "BUY", 100⟩
      = insertList [⟨"1", "BUY", 100⟩, ⟨"2", "BUY", 100⟩, ⟨"3", "BUY", 100⟩]
    ∧ (⟨"3", "BUY", 100⟩ : Transaction)
        ∈ (insertList
            [⟨"1", "BUY", 100⟩, ⟨"2", "BUY", 100⟩,
              ⟨"3", "BUY", 100⟩]).InorderTraversal
    ∧ (insertList [⟨"1", "BUY", 100⟩, ⟨"2", "BUY", 100⟩,
        ⟨"3", "BUY", 100⟩]).InorderTraversal.length = 3 := by
  decide

/-- Claim C1 amended: inserting three orders with the same price and
distinct ids into the empty tree yields exactly three distinct entries
in `InorderTraversal`; the three orders can then each be removed by
`Remove`, disambiguated by id, in insertion order (each removal deleting
exactly that entry) — but not in an arbitrary order: removing the
third-inserted order first is a no-op that leaves the tree unchanged. -/
theorem claim_C1_amended (a b c : Transaction)
    (hb : b.Amount = a.Amount) (hc : c.Amount = a.Amount)
    (h1 : a.ID ≠ b.ID) (h2 : a.ID ≠ c.ID) (h3 : b.ID ≠ c.ID) :
    ((TreeNode.nil.Insert a).Insert b).Insert c
        = .node (.node .nil c .nil 0) b (.node .nil a .nil 0) 1
    ∧ (((TreeNode.nil.Insert a).Insert b).Insert c).InorderTraversal
        = [c, b, a]
    ∧ (((TreeNode.nil.Insert a).Insert b).Insert c).InorderTraversal.Nodup
    ∧ (TreeNode.Remove (((TreeNode.nil.Insert a).Insert b).Insert c)
          a).InorderTraversal = [c, b]
    ∧ (TreeNode.Remove (TreeNode.Remove
          (((TreeNode.nil.Insert a).Insert b).Insert c) a) b).InorderTraversal
        = [c]
    ∧ TreeNode.Remove (TreeNode.Remove (TreeNode.Remove
          (((TreeNode.nil.Insert a).Insert b).Insert c) a) b) c = .nil
    ∧ TreeNode.Remove (((TreeNode.nil.Insert a).Insert b).Insert c) c
        = ((TreeNode.nil.Insert a).Insert b).Insert c := by
  have hins : ((TreeNode.nil.Insert a).Insert b).Insert c
      = .node (.node .nil c .nil 0) b (.node .nil a .nil 0) 1 := by
    simp [TreeNode.Insert, insertNode, insertRebalance, mkNode, height,
      balanceFactor, treeValue, rotateRight, rotateLeft, hb, hc]
  have hra : TreeNode.Remove
      (.node (.node .nil c .nil 0) b (.node .nil a .nil 0) 1) a
      = .node (.node .nil c .nil 0) b .nil 1 := by
    simp [TreeNode.Remove, removeNode, removeRebalance, mkNode, height,
      balanceFactor, treeValue, rotateRight, rotateLeft, hb, hc, Ne.symm h1]
  have hrb : TreeNode.Remove (.node (.node .nil c .nil 0) b .nil 1) b
      = .node .nil c .nil 0 := by
    simp [TreeNode.Remove, removeNode, removeRebalance, mkNode, height,
      balanceFactor, treeValue, rotateRight, rotateLeft, hb, hc]
  have hrc : TreeNode.Remove (.node .nil c .nil 0) c = .nil := by
    simp [TreeNode.Remove, removeNode, removeRebalance, mkNode, height,
      balanceFactor, treeValue]
  have hnoop : TreeNode.Remove
      (.node (.node .nil c .nil 0) b (.node .nil a .nil 0) 1) c
      = .node (.node .nil c .nil 0) b (.node .nil a .nil 0) 1 := by
    simp [TreeNode.Remove, removeNode, removeRebalance, mkNode, height,
      balanceFactor, treeValue, findMinValue, hb, hc, h3, h2]
  have hcb : c ≠ b := fun hcb => h3 (by rw [hcb])
  have hca : c ≠ a := fun hca => h2 (by rw [hca])
  have hba : b ≠ a := fun hba => h1 (by rw [hba])
  refine ⟨hins, ?_, ?_, ?_, ?_, ?_, ?_⟩
  · rw [hins]; rfl
  · rw [hins]
    simp [TreeNode.InorderTraversal, TreeNode.inorder, hcb, hca, hba]
  · rw [hins, hra]; rfl
  · rw [hins, hra, hrb]; rfl
  · rw [hins, hra, hrb, hrc]
  · rw [hins, hnoop]

/-- Witness for the amended C1 at concrete distinct-id inputs. -/
theorem claim_C1_amended_witness :
    ((TreeNode.nil.Insert ⟨"1", "BUY", 100⟩).Insert
        ⟨"2", "BUY", 100⟩).Insert ⟨"3", "BUY", 100⟩
      = .node (.node .nil ⟨"3", "BUY", 100⟩ .nil 0) ⟨"2", "BUY", 100⟩
          (.node .nil ⟨"1", "BUY", 100⟩ .nil 0) 1 :=
  (claim_C1_amended ⟨"1", "BUY", 100⟩ ⟨"2", "BUY", 100⟩ ⟨"3", "BUY", 100⟩
    rfl rfl (by decide) (by decide) (by decide)).1

/-- Claim C2 fails as stated: after inserting orders with prices
1, 1, 2, 2 (ids 0..3), removing the order with id 0 leaves a multiset
that is not the original minus that entry: the promotion of the in-order
successor (id 3, price 2) copies it into the deleted slot, and the
follow-up removal of the successor misses it (equal price, different id
at the right subtree's root forces a right descent while the successor
sits on the left), so the entry with id 3 ends up in the tree twice. -/
theorem claim_C2_counterexample :
    ((TreeNode.Remove
        (insertList [⟨"0", "BUY", 1⟩, ⟨"1", "BUY", 1⟩, ⟨"2", "BUY", 2⟩,
          ⟨"3", "BUY", 2⟩]) ⟨"0", "BUY", 1⟩).InorderTraversal
      = [⟨"1", "BUY", 1⟩, ⟨"3", "BUY", 2⟩, ⟨"3", "BUY", 2⟩, ⟨"2", "BUY", 2⟩])
    ∧ ((insertList [⟨"0", "BUY", 1⟩, ⟨"1", "BUY", 1⟩, ⟨"2", "BUY", 2⟩,
          ⟨"3", "BUY", 2⟩]).InorderTraversal.count ⟨"3", "BUY", 2⟩ = 1)
    ∧ ((TreeNode.Remove
        (insertList [⟨"0", "BUY", 1⟩, ⟨"1", "BUY", 1⟩, ⟨"2", "BUY", 2⟩,
          ⟨"3", "BUY", 2⟩]) ⟨"0", "BUY", 1⟩).InorderTraversal.count
        ⟨"3", "BUY", 2⟩ = 2) := by
  decide

/-- Claim C2 amended: `Remove` on the empty tree is a no-op (not an
error), and removing `x` keeps every other order contained and
reachable: when all ids in the tree are distinct, every order `y` with
`y.ID ≠ x.ID` that was in the traversal is still in the traversal after
`Remove x`. The multiset equality claimed originally does not hold: a
removal can additionally duplicate one remaining entry (see the
counterexample), so only containment is guaranteed. -/
theorem claim_C2_amended :
    (∀ v : Transaction, TreeNode.Remove .nil v = .nil)
    ∧ (∀ (t : TreeNode) (v y : Transaction), idsNodup t →
        y ∈ t.InorderTraversal → y.ID ≠ v.ID →
        y ∈ (TreeNode.Remove t v).InorderTraversal) := by
  constructor
  · intro v; rfl
  · intro t v y hn hy hne
    exact remove_mem_preserved t v y hn hy hne

/-- Witness for the amended C2 at concrete inputs: removing id 0 keeps
the order with id 1. -/
theorem claim_C2_amended_witness :
    TreeNode.Remove .nil ⟨"0", "BUY", 1⟩ = .nil
    ∧ (⟨"1", "BUY", 1⟩ : Transaction)
        ∈ (TreeNode.Remove
            (insertList [⟨"0", "BUY", 1⟩, ⟨"1", "BUY", 1⟩])
            ⟨"0", "BUY", 1⟩).InorderTraversal :=
  ⟨claim_C2_amended.1 ⟨"0", "BUY", 1⟩,
   claim_C2_amended.2 (insertList [⟨"0", "BUY", 1⟩, ⟨"1", "BUY", 1⟩])
     ⟨"0", "BUY", 1⟩ ⟨"1", "BUY", 1⟩ (by unfold idsNodup; decide) (by decide)
     (by decide)⟩

/-- Claim C4: for every sequence of `Insert` operations starting from the
empty tree, `InorderTraversal` yields the contained orders in
non-decreasing order of price; and inserting an order whose price equals
the price at a visited node descends into that node's left subtree (the
comparison `price(new) <= price(node)` goes left), so the new order's
entry lands inside the left-subtree segment of the traversal. -/
theorem claim_C4_bst_ordering :
    (∀ xs : List Transaction,
      ((insertList xs).InorderTraversal).Pairwise amtLe) ∧
    (∀ (l : TreeNode) (x : Transaction) (r : TreeNode) (h : Int)
        (v : Transaction), v.Amount = x.Amount →
      (TreeNode.insertNode (.node l x r h) v).inorder
        = (TreeNode.insertNode l v).inorder ++ x :: r.inorder) := by
  constructor
  · intro xs
    exact pairwise_inorder_insertList xs
  · intro l x r h v hv
    simp only [TreeNode.insertNode]
    rw [if_pos (le_of_eq hv), TreeNode.inorder_insertRebalance]

/-- Witness for C4 at concrete inputs. -/
theorem claim_C4_bst_ordering_witness :
    ((insertList [⟨"a", "BUY", 5⟩, ⟨"b", "BUY", 3⟩]).InorderTraversal).Pairwise
       amtLe ∧
    (TreeNode.insertNode
        (.node .nil ⟨"a", "BUY", 5⟩ .nil 0) ⟨"b", "BUY", 5⟩).inorder
      = (TreeNode.insertNode .nil ⟨"b", "BUY", 5⟩).inorder
          ++ ⟨"a", "BUY", 5⟩ :: TreeNode.nil.inorder :=
  ⟨claim_C4_bst_ordering.1 [⟨"a", "BUY", 5⟩, ⟨"b", "BUY", 3⟩],
   claim_C4_bst_ordering.2 .nil ⟨"a", "BUY", 5⟩ .nil 0 ⟨"b", "BUY", 5⟩ rfl⟩

/-- Claim C8: on every tree built by a sequence of `Insert` operations,
if some contained order has price `p` then `Search p` returns an order
with price exactly `p`, and if no contained order has price `p` then
`Search p` returns `none` (Go: `nil`). -/
theorem claim_C8_search_correct (xs : List Transaction) (p : Int) :
    ((∃ y ∈ (insertList xs).inorder, y.Amount = p) →
      ∃ o, (insertList xs).Search p = some o ∧ o.Amount = p) ∧
    ((∀ y ∈ (insertList xs).inorder, y.Amount ≠ p) →
      (insertList xs).Search p = none) := by
  constructor
  · rintro ⟨y, hy, hyp⟩
    exact TreeNode.searchNode_finds _ p (pairwise_inorder_insertList xs) y hy hyp
  · intro habs
    cases hcase : (insertList xs).Search p with
    | none => rfl
    | some o =>
      obtain ⟨h1, h2⟩ := TreeNode.searchNode_eq_some _ p o hcase
      exact absurd h1 (habs o h2)

/-- Witness for C8 at concrete inputs: price 5 is present and found;
price 7 is absent and reported not found. -/
theorem claim_C8_search_correct_witness :
    (∃ o, (insertList [⟨"a", "BUY", 5⟩, ⟨"b", "BUY", 3⟩]).Search 5 = some o
        ∧ o.Amount = 5) ∧
    (insertList [⟨"a", "BUY", 5⟩, ⟨"b", "BUY", 3⟩]).Search 7 = none :=
  ⟨(claim_C8_search_correct [⟨"a", "BUY", 5⟩, ⟨"b", "BUY", 3⟩] 5).1
      ⟨⟨"a", "BUY", 5⟩, by decide, rfl⟩,
   (claim_C8_search_correct [⟨"a", "BUY", 5⟩, ⟨"b", "BUY", 3⟩] 7).2
      (by decide)⟩

theorem findFirstSellMatch_spec (b : Transaction) :
    ∀ (sells : List Transaction) (m : Transaction) (rest : List Transaction),
      findFirstSellMatch b sells = some (m, rest) →
      m.Amount ≤ b.Amount ∧ List.Perm sells (m :: rest) := by
  intro sells
  induction sells with
  | nil => intro m rest h; simp [findFirstSellMatch] at h
  | cons s ss ih =>
    intro m rest h
    simp only [findFirstSellMatch] at h
    split at h
    · rename_i hge
      cases h
      exact ⟨hge, List.Perm.refl _⟩
    · rename_i hlt
      cases hrec : findFirstSellMatch b ss with
      | none => rw [hrec] at h; simp at h
      | some pr =>
        rw [hrec] at h
        obtain ⟨m', rest'⟩ := pr
        simp only at h
        cases h
        obtain ⟨h1, h2⟩ := ih m rest' hrec
        refine ⟨h1, ?_⟩
        exact List.Perm.trans (List.Perm.cons s h2) (List.Perm.swap m s rest')

theorem matchOrders_spec (bs : List Transaction) :
    ∀ sells : List Transaction,
      (∀ p ∈ matchOrders bs sells, (p.2).Amount ≤ (p.1).Amount)
      ∧ ((matchOrders bs sells).map Prod.fst).Sublist bs
      ∧ ((matchOrders bs sells).map Prod.snd).Subperm sells := by
  induction bs with
  | nil => intro sells; refine ⟨by simp [matchOrders], by simp [matchOrders], ?_⟩
           simp only [matchOrders, List.map_nil]
           exact List.nil_subperm
  | cons b bs ih =>
    intro sells
    simp only [matchOrders]
    cases hfm : findFirstSellMatch b sells with
    | none =>
      obtain ⟨hp, hsub, hperm⟩ := ih sells
      exact ⟨hp, hsub.cons b, hperm⟩
    | some pr =>
      obtain ⟨m, sells'⟩ := pr
      obtain ⟨hmb, hperm0⟩ := findFirstSellMatch_spec b sells m sells' hfm
      obtain ⟨hp, hsub, hperm⟩ := ih sells'
      refine ⟨?_, ?_, ?_⟩
      · intro p hp2
        rcases List.mem_cons.1 hp2 with rfl | hp2
        · exact hmb
        · exact hp p hp2
      · simpa using hsub.cons₂ b
      · show (m :: (matchOrders bs sells').map Prod.snd).Subperm sells
        have h1 : (m :: (matchOrders bs sells').map Prod.snd).Subperm (m :: sells') :=
          (List.subperm_cons m).2 hperm
        exact (hperm0.subperm_left).2 h1

theorem settleStep_ltp (pairs : List (Transaction × Transaction)) :
    ∀ (e : Exchange) (acc : List Int),
      (pairs.foldl settleStep (e, acc)).1.LastTradedPrice
        = (match pairs.getLast? with
           | none => e.LastTradedPrice
           | some q => if q.2.Amount < 1 then 1 else q.2.Amount) := by
  induction pairs with
  | nil => intro e acc; rfl
  | cons p ps ih =>
    intro e acc
    rw [List.foldl_cons]
    rw [ih (settleStep (e, acc) p).1 (settleStep (e, acc) p).2]
    cases ps with
    | nil => rfl
    | cons q qs => rfl

/-- Claim C5: in one matching cycle, every recorded pair satisfies
`buy.Amount >= sell.Amount`; the buys of the recorded pairs form a
sublist of the buy snapshot (each buy entry matched at most once) and
the sells a sub-permutation of the sell snapshot (each sell entry
consumed at most once); if no pair is found the last traded price is
unchanged, and otherwise it ends at the sell price of the last matched
pair, clamped up to 1. -/
theorem claim_C5_matching_cycle (e : Exchange) :
    (∀ p ∈ matchOrders ((e.BuyQ.InorderTraversal).reverse)
        (e.SellQ.InorderTraversal), (p.2).Amount ≤ (p.1).Amount)
    ∧ ((matchOrders ((e.BuyQ.InorderTraversal).reverse)
        (e.SellQ.InorderTraversal)).map Prod.fst).Sublist
        ((e.BuyQ.InorderTraversal).reverse)
    ∧ ((matchOrders ((e.BuyQ.InorderTraversal).reverse)
        (e.SellQ.InorderTraversal)).map Prod.snd).Subperm
        (e.SellQ.InorderTraversal)
    ∧ (matchOrders ((e.BuyQ.InorderTraversal).reverse)
        (e.SellQ.InorderTraversal) = [] →
        (processTradesCycle e).1.LastTradedPrice = e.LastTradedPrice)
    ∧ (∀ q, (matchOrders ((e.BuyQ.InorderTraversal).reverse)
        (e.SellQ.InorderTraversal)).getLast? = some q →
        (processTradesCycle e).1.LastTradedPrice
          = if q.2.Amount < 1 then 1 else q.2.Amount) := by
  obtain ⟨hp, hsub, hperm⟩ :=
    matchOrders_spec ((e.BuyQ.InorderTraversal).reverse) (e.SellQ.InorderTraversal)
  refine ⟨hp, hsub, hperm, ?_, ?_⟩
  · intro hnil
    show ((matchOrders ((InorderTraversal e.BuyQ).reverse)
        (InorderTraversal e.SellQ)).foldl settleStep (e, [])).1.LastTradedPrice
      = e.LastTradedPrice
    rw [settleStep_ltp, hnil]
    rfl
  · intro q hq
    show ((matchOrders ((InorderTraversal e.BuyQ).reverse)
        (InorderTraversal e.SellQ)).foldl settleStep (e, [])).1.LastTradedPrice
      = if q.2.Amount < 1 then 1 else q.2.Amount
    rw [settleStep_ltp, hq]

/-- A concrete one-buy/one-sell exchange used by witnesses. -/
def exchangeA : Exchange :=
  { LastTradedPrice := 50,
    BuyQ := .node .nil ⟨"b1", "BUY", 110⟩ .nil 0,
    SellQ := .node .nil ⟨"s1", "SELL", 90⟩ .nil 0 }

/-- A concrete empty-book exchange used by witnesses. -/
def exchangeB : Exchange := { LastTradedPrice := 7, BuyQ := .nil, SellQ := .nil }

/-- Witness for C5: the concrete matched pair satisfies the price rule;
an empty cycle leaves the price unchanged; the one-pair cycle ends at
the (clamped) sell price. -/
theorem claim_C5_matching_cycle_witness :
    (((⟨"b1", "BUY", 110⟩, ⟨"s1", "SELL", 90⟩) :
        Transaction × Transaction).2.Amount
      ≤ ((⟨"b1", "BUY", 110⟩, ⟨"s1", "SELL", 90⟩) :
        Transaction × Transaction).1.Amount)
    ∧ (processTradesCycle exchangeB).1.LastTradedPrice
        = exchangeB.LastTradedPrice
    ∧ (processTradesCycle exchangeA).1.LastTradedPrice
        = if ((⟨"b1", "BUY", 110⟩, ⟨"s1", "SELL", 90⟩) :
            Transaction × Transaction).2.Amount < 1 then 1
          else ((⟨"b1", "BUY", 110⟩, ⟨"s1", "SELL", 90⟩) :
            Transaction × Transaction).2.Amount :=
  ⟨(claim_C5_matching_cycle exchangeA).1 _ (by decide),
   (claim_C5_matching_cycle exchangeB).2.2.2.1 (by decide),
   (claim_C5_matching_cycle exchangeA).2.2.2.2 _ (by decide)⟩

/-- Claim C6: with exactly one buy order at 110 and one sell order at 90
(fed through `NewExchange` and the ingestion step), one matching cycle
sets the last traded price to 90, leaves both books without those
orders (they become empty), and dispatches exactly one subscriber
notification carrying 90. -/
theorem claim_C6_matching_scenario :
    (processTradesCycle (acceptTradeStep
        (acceptTradeStep (NewExchange 100) ⟨"b1", "BUY", 110⟩)
        ⟨"s1", "SELL", 90⟩)).1.LastTradedPrice = 90
    ∧ (processTradesCycle (acceptTradeStep
        (acceptTradeStep (NewExchange 100) ⟨"b1", "BUY", 110⟩)
        ⟨"s1", "SELL", 90⟩)).1.BuyQ.InorderTraversal = []
    ∧ (processTradesCycle (acceptTradeStep
        (acceptTradeStep (NewExchange 100) ⟨"b1", "BUY", 110⟩)
        ⟨"s1", "SELL", 90⟩)).1.SellQ.InorderTraversal = []
    ∧ (processTradesCycle (acceptTradeStep
        (acceptTradeStep (NewExchange 100) ⟨"b1", "BUY", 110⟩)
        ⟨"s1", "SELL", 90⟩)).2 = [90] := by
  decide

/-- Claim C7: constructing the exchange with an initial last traded
price `p ≤ 0` yields 1 (and with `p ≥ 1` exactly `p`); an inbound order
with price below 1 is rejected by the ingestion step, leaving the whole
exchange — in particular both books — unchanged. -/
theorem claim_C7_price_floor :
    (∀ p : Int, p ≤ 0 → (NewExchange p).LastTradedPrice = 1)
    ∧ (∀ p : Int, 1 ≤ p → (NewExchange p).LastTradedPrice = p)
    ∧ (∀ (e : Exchange) (txn : Transaction), txn.Amount < 1 →
        acceptTradeStep e txn = e) := by
  refine ⟨?_, ?_, ?_⟩
  · intro p hp
    simp [NewExchange, show p < 1 by omega]
  · intro p hp
    simp [NewExchange, show ¬(p < 1) by omega]
  · intro e txn h
    simp [acceptTradeStep, h]

/-- Witness for C7 at concrete inputs. -/
theorem claim_C7_price_floor_witness :
    (NewExchange (-3)).LastTradedPrice = 1
    ∧ (NewExchange 5).LastTradedPrice = 5
    ∧ acceptTradeStep exchangeB ⟨"x", "BUY", 0⟩ = exchangeB :=
  ⟨claim_C7_price_floor.1 (-3) (by decide),
   claim_C7_price_floor.2.1 5 (by decide),
   claim_C7_price_floor.2.2 exchangeB ⟨"x", "BUY", 0⟩ (by decide)⟩

/-- Claim C10: an inbound order with a valid price but a side string
that is neither BUY nor SELL is silently dropped by the ingestion step:
the exchange — in particular both books — is exactly unchanged. -/
theorem claim_C10_unknown_type (e : Exchange) (txn : Transaction)
    (h1 : 1 ≤ txn.Amount) (h2 : txn.TxnType ≠ BuyTransactionType)
    (h3 : txn.TxnType ≠ SellTransactionType) :
    acceptTradeStep e txn = e := by
  simp [acceptTradeStep, h2, h3, show ¬(txn.Amount < 1) by omega]

/-- Witness for C10 at a concrete input. -/
theorem claim_C10_unknown_type_witness :
    acceptTradeStep exchangeB ⟨"x", "HOLD", 5⟩ = exchangeB :=
  claim_C10_unknown_type exchangeB ⟨"x", "HOLD", 5⟩ (by decide) (by decide)
    (by decide)

theorem insertLe_perm {α : Type} (le : α → α → Bool) (a : α) (l : List α) :
    List.Perm (insertLe le a l) (a :: l) := by
  induction l with
  | nil => exact List.Perm.refl _
  | cons b bs ih =>
    simp only [insertLe]
    split
    · exact List.Perm.refl _
    · exact List.Perm.trans (List.Perm.cons b ih) (List.Perm.swap a b bs)

theorem sortLe_perm {α : Type} (le : α → α → Bool) (l : List α) :
    List.Perm (sortLe le l) l := by
  induction l with
  | nil => exact List.Perm.refl _
  | cons a as ih =>
    exact List.Perm.trans (insertLe_perm le a (sortLe le as)) (List.Perm.cons a ih)

theorem pairwise_insertLe {α : Type} (le : α → α → Bool)
    (htot : ∀ x y, le x y = true ∨ le y x = true)
    (htrans : ∀ x y z, le x y = true → le y z = true → le x z = true)
    (a : α) (l : List α) (hl : l.Pairwise (fun x y => le x y = true)) :
    (insertLe le a l).Pairwise (fun x y => le x y = true) := by
  induction l with
  | nil => simp [insertLe]
  | cons b bs ih =>
    obtain ⟨hb, hbs⟩ := List.pairwise_cons.1 hl
    simp only [insertLe]
    split
    · rename_i hab
      refine List.pairwise_cons.2 ⟨?_, hl⟩
      intro z hz
      rcases List.mem_cons.1 hz with rfl | hz
      · exact hab
      · exact htrans a b z hab (hb z hz)
    · rename_i hab
      have hba : le b a = true := by
        rcases htot a b with h | h
        · exact absurd h hab
        · exact h
      refine List.pairwise_cons.2 ⟨?_, ih hbs⟩
      intro z hz
      have hz' : z = a ∨ z ∈ bs :=
        by simpa using (insertLe_perm le a bs).mem_iff.1 hz
      rcases hz' with rfl | hz'
      · exact hba
      · exact hb z hz'

theorem pairwise_sortLe {α : Type} (le : α → α → Bool)
    (htot : ∀ x y, le x y = true ∨ le y x = true)
    (htrans : ∀ x y z, le x y = true → le y z = true → le x z = true)
    (l : List α) :
    (sortLe le l).Pairwise (fun x y => le x y = true) := by
  induction l with
  | nil => simp [sortLe]
  | cons a as ih => exact pairwise_insertLe le htot htrans a (sortLe le as) ih

theorem pairwise_sortLe_buy (l : List OrderBookEntry) :
    (sortLe buyEntryLe l).Pairwise (fun a b => b.Price ≤ a.Price) := by
  have h := pairwise_sortLe buyEntryLe
    (fun x y => by unfold buyEntryLe; rcases le_total y.Price x.Price with h | h
                   · exact Or.inl (by simpa using h)
                   · exact Or.inr (by simpa using h))
    (fun x y z h1 h2 => by
      unfold buyEntryLe at h1 h2 ⊢
      simp only [decide_eq_true_eq] at h1 h2 ⊢
      omega) l
  exact h.imp (fun hxy => by simpa [buyEntryLe] using hxy)

theorem pairwise_sortLe_sell (l : List OrderBookEntry) :
    (sortLe sellEntryLe l).Pairwise (fun a b => a.Price ≤ b.Price) := by
  have h := pairwise_sortLe sellEntryLe
    (fun x y => by unfold sellEntryLe; rcases le_total x.Price y.Price with h | h
                   · exact Or.inl (by simpa using h)
                   · exact Or.inr (by simpa using h))
    (fun x y z h1 h2 => by
      unfold sellEntryLe at h1 h2 ⊢
      simp only [decide_eq_true_eq] at h1 h2 ⊢
      omega) l
  exact h.imp (fun hxy => by simpa [sellEntryLe] using hxy)

/-- Claim C9: `GetOrderBook` returns the buy-side entries sorted in
non-increasing price order and the sell-side entries in non-decreasing
price order, each truncated to at most 10 entries; every returned entry
is the image (id, price, side) of an order in the corresponding book;
and the exchange — in particular both books — is unchanged by the call. -/
theorem claim_C9_orderbook (e : Exchange) :
    ((GetOrderBook e).1.BuyOrders).Pairwise (fun a b => b.Price ≤ a.Price)
    ∧ ((GetOrderBook e).1.SellOrders).Pairwise (fun a b => a.Price ≤ b.Price)
    ∧ (GetOrderBook e).1.BuyOrders.length ≤ 10
    ∧ (GetOrderBook e).1.SellOrders.length ≤ 10
    ∧ (∀ en ∈ (GetOrderBook e).1.BuyOrders,
        en ∈ (e.BuyQ.InorderTraversal).map entryOfTxn)
    ∧ (∀ en ∈ (GetOrderBook e).1.SellOrders,
        en ∈ (e.SellQ.InorderTraversal).map entryOfTxn)
    ∧ (GetOrderBook e).2 = e := by
  have hbdef : (GetOrderBook e).1.BuyOrders
      = (if (sortLe buyEntryLe ((InorderTraversal e.BuyQ).map entryOfTxn)).length > 10
         then (sortLe buyEntryLe ((InorderTraversal e.BuyQ).map entryOfTxn)).take 10
         else sortLe buyEntryLe ((InorderTraversal e.BuyQ).map entryOfTxn)) := rfl
  have hsdef : (GetOrderBook e).1.SellOrders
      = (if (sortLe sellEntryLe ((InorderTraversal e.SellQ).map entryOfTxn)).length > 10
         then (sortLe sellEntryLe ((InorderTraversal e.SellQ).map entryOfTxn)).take 10
         else sortLe sellEntryLe ((InorderTraversal e.SellQ).map entryOfTxn)) := rfl
  refine ⟨?_, ?_, ?_, ?_, ?_, ?_, rfl⟩
  · rw [hbdef]
    split
    · exact (pairwise_sortLe_buy _).take
    · exact pairwise_sortLe_buy _
  · rw [hsdef]
    split
    · exact (pairwise_sortLe_sell _).take
    · exact pairwise_sortLe_sell _
  · rw [hbdef]
    split
    · rename_i hlen
      simp
    · rename_i hlen
      omega
  · rw [hsdef]
    split
    · rename_i hlen
      simp
    · rename_i hlen
      omega
  · intro en hen
    rw [hbdef] at hen
    have hen' : en ∈ sortLe buyEntryLe ((InorderTraversal e.BuyQ).map entryOfTxn) := by
      revert hen
      split
      · intro hen; exact (List.take_sublist _ _).mem hen
      · intro hen; exact hen
    exact (sortLe_perm _ _).mem_iff.1 hen'
  · intro en hen
    rw [hsdef] at hen
    have hen' : en ∈ sortLe sellEntryLe ((InorderTraversal e.SellQ).map entryOfTxn) := by
      revert hen
      split
      · intro hen; exact (List.take_sublist _ _).mem hen
      · intro hen; exact hen
    exact (sortLe_perm _ _).mem_iff.1 hen'

/-- Witness for C9: the concrete exchange's buy entry appears among the
book's mapped orders. -/
theorem claim_C9_orderbook_witness :
    (⟨"b1", 110, "BUY"⟩ : OrderBookEntry)
      ∈ ((exchangeA.BuyQ.InorderTraversal).map entryOfTxn) :=
  (claim_C9_orderbook exchangeA).2.2.2.2.1 ⟨"b1", 110, "BUY"⟩ (by decide)

namespace TreeNode

/-- The AVL well-formedness invariant of the spec: at every node the
stored height equals `1 + max(height left, height right)` and the two
subtree heights differ by at most 1 (an absent subtree having height -1,
a leaf height 0 by the height equation). -/
def Avl : TreeNode → Prop
  | nil => True
  | node l _ r h =>
    Avl l ∧ Avl r ∧ h = 1 + max (height l) (height r)
      ∧ height l - height r ≤ 1 ∧ height r - height l ≤ 1

instance instDecidableAvl : (t : TreeNode) → Decidable (Avl t)
  | nil => isTrue trivial
  | node l _ r _ =>
    have : Decidable (Avl l) := instDecidableAvl l
    have : Decidable (Avl r) := instDecidableAvl r
    inferInstanceAs (Decidable (_ ∧ _))

theorem height_nil_eq : height nil = -1 := rfl

theorem height_node_eq (l : TreeNode) (x : Transaction) (r : TreeNode) (h : Int) :
    height (node l x r h) = h := rfl

theorem avl_height_lower (t : TreeNode) (hA : Avl t) : -1 ≤ height t := by
  induction t with
  | nil => simp [height]
  | node l x r h ihl ihr =>
    obtain ⟨hAl, hAr, hh, _, _⟩ := hA
    have h1 := ihl hAl
    have h2 := ihr hAr
    rw [height_node_eq]
    omega

theorem balanceFactor_mkNode (l : TreeNode) (x : Transaction) (r : TreeNode) :
    balanceFactor (mkNode l x r) = height l - height r := rfl

theorem treeValue_mkNode (l : TreeNode) (x : Transaction) (r : TreeNode) :
    treeValue (mkNode l x r) = x := rfl

theorem Avl_mkNode (l : TreeNode) (x : Transaction) (r : TreeNode)
    (hl : Avl l) (hr : Avl r)
    (h1 : height l - height r ≤ 1) (h2 : height r - height l ≤ 1) :
    Avl (mkNode l x r) := by
  refine ⟨hl, hr, ?_, h1, h2⟩
  simp only [mkNode, height]
  split <;> omega

theorem balanceFactor_node_eq (l : TreeNode) (x : Transaction) (r : TreeNode)
    (h : Int) : balanceFactor (node l x r h) = height l - height r := rfl

theorem insertRebalance_no_rot (l : TreeNode) (x : Transaction) (r : TreeNode)
    (v : Transaction) (h1 : height l - height r ≤ 1) (h2 : height r - height l ≤ 1) :
    insertRebalance l x r v = mkNode l x r := by
  unfold insertRebalance
  rw [balanceFactor_mkNode]
  rw [if_neg (fun hc => absurd hc.1 (by omega)),
    if_neg (fun hc => absurd hc.1 (by omega)),
    if_neg (fun hc => absurd hc.1 (by omega)),
    if_neg (fun hc => absurd hc.1 (by omega))]

theorem insertRebalance_LL (l : TreeNode) (x : Transaction) (r : TreeNode)
    (v : Transaction) (hd : height l - height r = 2)
    (hv : v.Amount ≤ (treeValue l).Amount) :
    insertRebalance l x r v = rotateRight (mkNode l x r) := by
  unfold insertRebalance
  rw [balanceFactor_mkNode]
  rw [if_pos ⟨by omega, hv⟩]

theorem insertRebalance_LR (l : TreeNode) (x : Transaction) (r : TreeNode)
    (v : Transaction) (hd : height l - height r = 2)
    (hv : (treeValue l).Amount < v.Amount) :
    insertRebalance l x r v = rotateRight (mkNode (rotateLeft l) x r) := by
  unfold insertRebalance
  rw [balanceFactor_mkNode]
  rw [if_neg (fun hc => absurd hc.2 (by omega)),
    if_neg (fun hc => absurd hc.1 (by omega)),
    if_pos ⟨by omega, by omega⟩]

theorem insertRebalance_RR (l : TreeNode) (x : Transaction) (r : TreeNode)
    (v : Transaction) (hd : height l - height r = -2)
    (hv : (treeValue r).Amount < v.Amount) :
    insertRebalance l x r v = rotateLeft (mkNode l x r) := by
  unfold insertRebalance
  rw [balanceFactor_mkNode]
  rw [if_neg (fun hc => absurd hc.1 (by omega)),
    if_pos ⟨by omega, by omega⟩]

theorem insertRebalance_RL (l : TreeNode) (x : Transaction) (r : TreeNode)
    (v : Transaction) (hd : height l - height r = -2)
    (hv : v.Amount ≤ (treeValue r).Amount) :
    insertRebalance l x r v = rotateLeft (mkNode l x (rotateRight r)) := by
  unfold insertRebalance
  rw [balanceFactor_mkNode]
  rw [if_neg (fun hc => absurd hc.1 (by omega)),
    if_neg (fun hc => absurd hc.2 (by omega)),
    if_neg (fun hc => absurd hc.1 (by omega)),
    if_pos ⟨by omega, hv⟩]

theorem removeRebalance_no_rot (l : TreeNode) (x : Transaction) (r : TreeNode)
    (h1 : height l - height r ≤ 1) (h2 : height r - height l ≤ 1) :
    removeRebalance l x r = mkNode l x r := by
  unfold removeRebalance
  rw [balanceFactor_mkNode]
  rw [if_neg (fun hc => absurd hc.1 (by omega)),
    if_neg (fun hc => absurd hc.1 (by omega)),
    if_neg (fun hc => absurd hc.1 (by omega)),
    if_neg (fun hc => absurd hc.1 (by omega))]

theorem removeRebalance_LL (l : TreeNode) (x : Transaction) (r : TreeNode)
    (hd : height l - height r = 2) (hb : 0 ≤ balanceFactor l) :
    removeRebalance l x r = rotateRight (mkNode l x r) := by
  unfold removeRebalance
  rw [balanceFactor_mkNode]
  rw [if_pos ⟨by omega, hb⟩]

theorem removeRebalance_LR (l : TreeNode) (x : Transaction) (r : TreeNode)
    (hd : height l - height r = 2) (hb : balanceFactor l < 0) :
    removeRebalance l x r = rotateRight (mkNode (rotateLeft l) x r) := by
  unfold removeRebalance
  rw [balanceFactor_mkNode]
  rw [if_neg (fun hc => absurd hc.2 (by omega)),
    if_pos ⟨by omega, hb⟩]

theorem removeRebalance_RR (l : TreeNode) (x : Transaction) (r : TreeNode)
    (hd : height l - height r = -2) (hb : balanceFactor r ≤ 0) :
    removeRebalance l x r = rotateLeft (mkNode l x r) := by
  unfold removeRebalance
  rw [balanceFactor_mkNode]
  rw [if_neg (fun hc => absurd hc.1 (by omega)),
    if_neg (fun hc => absurd hc.1 (by omega)),
    if_pos ⟨by omega, hb⟩]

theorem removeRebalance_RL (l : TreeNode) (x : Transaction) (r : TreeNode)
    (hd : height l - height r = -2) (hb : 0 < balanceFactor r) :
    removeRebalance l x r = rotateLeft (mkNode l x (rotateRight r)) := by
  unfold removeRebalance
  rw [balanceFactor_mkNode]
  rw [if_neg (fun hc => absurd hc.1 (by omega)),
    if_neg (fun hc => absurd hc.1 (by omega)),
    if_neg (fun hc => absurd hc.2 (by omega)),
    if_pos ⟨by omega, hb⟩]

theorem rotR_spec (a : TreeNode) (m : Transaction) (b : TreeNode) (hl : Int)
    (x : Transaction) (r : TreeNode)
    (hA : Avl (node a m b hl)) (hr : Avl r)
    (hdiff : hl = height r + 2) (hbf : 0 ≤ height a - height b) :
    Avl (rotateRight (mkNode (node a m b hl) x r))
    ∧ (height a - height b = 1 →
        height (rotateRight (mkNode (node a m b hl) x r)) = height r + 2)
    ∧ (height a - height b = 0 →
        height (rotateRight (mkNode (node a m b hl) x r)) = height r + 3) := by
  obtain ⟨hAa, hAb, hhl, hb1, hb2⟩ := hA
  have hra := avl_height_lower a hAa
  have hrb := avl_height_lower b hAb
  have hrr := avl_height_lower r hr
  have hred : rotateRight (mkNode (node a m b hl) x r)
      = mkNode a m (mkNode b x r) := rfl
  rw [hred]
  refine ⟨Avl_mkNode _ _ _ hAa
      (Avl_mkNode _ _ _ hAb hr (by omega) (by omega))
      (by rw [height_mkNode]; omega) (by rw [height_mkNode]; omega),
    ?_, ?_⟩
  · intro h1
    rw [height_mkNode, height_mkNode]; omega
  · intro h0
    rw [height_mkNode, height_mkNode]; omega

theorem rotL_spec (l : TreeNode) (x : Transaction) (c : TreeNode)
    (z : Transaction) (d : TreeNode) (hrc : Int)
    (hAl : Avl l) (hA : Avl (node c z d hrc))
    (hdiff : hrc = height l + 2) (hbf : height c - height d ≤ 0) :
    Avl (rotateLeft (mkNode l x (node c z d hrc)))
    ∧ (height c - height d = -1 →
        height (rotateLeft (mkNode l x (node c z d hrc))) = height l + 2)
    ∧ (height c - height d = 0 →
        height (rotateLeft (mkNode l x (node c z d hrc))) = height l + 3) := by
  obtain ⟨hAc, hAd, hhr, hb1, hb2⟩ := hA
  have hrc' := avl_height_lower c hAc
  have hrd := avl_height_lower d hAd
  have hrl := avl_height_lower l hAl
  have hred : rotateLeft (mkNode l x (node c z d hrc))
      = mkNode (mkNode l x c) z d := rfl
  rw [hred]
  refine ⟨Avl_mkNode _ _ _
      (Avl_mkNode _ _ _ hAl hAc (by omega) (by omega)) hAd
      (by rw [height_mkNode]; omega) (by rw [height_mkNode]; omega),
    ?_, ?_⟩
  · intro h1
    rw [height_mkNode, height_mkNode]; omega
  · intro h0
    rw [height_mkNode, height_mkNode]; omega

theorem rotLR_spec (a : TreeNode) (m : Transaction) (b : TreeNode) (hl : Int)
    (x : Transaction) (r : TreeNode)
    (hA : Avl (node a m b hl)) (hr : Avl r)
    (hdiff : hl = height r + 2) (hbf : height a - height b < 0) :
    Avl (rotateRight (mkNode (rotateLeft (node a m b hl)) x r))
    ∧ height (rotateRight (mkNode (rotateLeft (node a m b hl)) x r))
        = height r + 2 := by
  obtain ⟨hAa, hAb, hhl, hb1, hb2⟩ := hA
  have hra := avl_height_lower a hAa
  have hrr := avl_height_lower r hr
  cases b with
  | nil =>
    rw [height_nil_eq] at hbf
    omega
  | node c n d hb2i =>
    obtain ⟨hAc, hAd, hhb, hc1, hc2⟩ := hAb
    have hrc := avl_height_lower c hAc
    have hrd := avl_height_lower d hAd
    rw [height_node_eq] at hbf hhl hb1 hb2
    have hred : rotateRight (mkNode (rotateLeft (node a m (node c n d hb2i) hl)) x r)
        = mkNode (mkNode a m c) n (mkNode d x r) := rfl
    rw [hred]
    constructor
    · refine Avl_mkNode _ _ _
        (Avl_mkNode _ _ _ hAa hAc (by omega) (by omega))
        (Avl_mkNode _ _ _ hAd hr (by omega) (by omega))
        ?_ ?_ <;> rw [height_mkNode, height_mkNode] <;> omega
    · rw [height_mkNode, height_mkNode, height_mkNode]; omega

theorem rotRL_spec (l : TreeNode) (x : Transaction) (c : TreeNode)
    (z : Transaction) (d : TreeNode) (hrc : Int)
    (hAl : Avl l) (hA : Avl (node c z d hrc))
    (hdiff : hrc = height l + 2) (hbf : 0 < height c - height d) :
    Avl (rotateLeft (mkNode l x (rotateRight (node c z d hrc))))
    ∧ height (rotateLeft (mkNode l x (rotateRight (node c z d hrc))))
        = height l + 2 := by
  obtain ⟨hAc, hAd, hhr, hb1, hb2⟩ := hA
  have hrd := avl_height_lower d hAd
  have hrl := avl_height_lower l hAl
  cases c with
  | nil =>
    rw [height_nil_eq] at hbf
    omega
  | node e w f hce =>
    obtain ⟨hAe, hAf, hhc, hc1, hc2⟩ := hAc
    have hre := avl_height_lower e hAe
    have hrf := avl_height_lower f hAf
    rw [height_node_eq] at hbf hhr hb1 hb2
    have hred : rotateLeft (mkNode l x (rotateRight (node (node e w f hce) z d hrc)))
        = mkNode (mkNode l x e) w (mkNode f z d) := rfl
    rw [hred]
    constructor
    · refine Avl_mkNode _ _ _
        (Avl_mkNode _ _ _ hAl hAe (by omega) (by omega))
        (Avl_mkNode _ _ _ hAf hAd (by omega) (by omega))
        ?_ ?_ <;> rw [height_mkNode, height_mkNode] <;> omega
    · rw [height_mkNode, height_mkNode, height_mkNode]; omega

theorem removeRebalance_spec (l : TreeNode) (x : Transaction) (r : TreeNode)
    (hAl : Avl l) (hAr : Avl r)
    (h1 : height l - height r ≤ 2) (h2 : height r - height l ≤ 2) :
    Avl (removeRebalance l x r)
    ∧ max (height l) (height r) ≤ height (removeRebalance l x r)
    ∧ height (removeRebalance l x r) ≤ 1 + max (height l) (height r)
    ∧ (height l - height r ≤ 1 → height r - height l ≤ 1 →
        height (removeRebalance l x r) = 1 + max (height l) (height r)) := by
  have hrl := avl_height_lower l hAl
  have hrr := avl_height_lower r hAr
  by_cases hsm : height l - height r ≤ 1 ∧ height r - height l ≤ 1
  · rw [removeRebalance_no_rot l x r hsm.1 hsm.2]
    exact ⟨Avl_mkNode _ _ _ hAl hAr hsm.1 hsm.2,
      by rw [height_mkNode]; omega,
      by rw [height_mkNode],
      fun _ _ => height_mkNode l x r⟩
  · rcases not_and_or.mp hsm with hgt | hgt
    · have hd : height l - height r = 2 := by omega
      cases l with
      | nil => exfalso; rw [height_nil_eq] at hd; omega
      | node a m b hl =>
        rw [height_node_eq] at hd
        have hbfeq := balanceFactor_node_eq a m b hl
        obtain ⟨hAa, hAb, hhl, hb1, hb2⟩ := hAl
        by_cases hbf : 0 ≤ balanceFactor (node a m b hl)
        · rw [removeRebalance_LL _ _ _ (by rw [height_node_eq]; omega) hbf]
          obtain ⟨hAvl, hh1, hh0⟩ :=
            rotR_spec a m b hl x r ⟨hAa, hAb, hhl, hb1, hb2⟩ hAr (by omega)
              (by omega)
          rcases (by omega : height a - height b = 0 ∨ height a - height b = 1)
            with h0 | h1c
          · have hres := hh0 h0
            refine ⟨hAvl, ?_, ?_, ?_⟩
            · rw [hres, height_node_eq]; omega
            · rw [hres, height_node_eq]; omega
            · intro hx hy; rw [height_node_eq] at hx; omega
          · have hres := hh1 h1c
            refine ⟨hAvl, ?_, ?_, ?_⟩
            · rw [hres, height_node_eq]; omega
            · rw [hres, height_node_eq]; omega
            · intro hx hy; rw [height_node_eq] at hx; omega
        · rw [removeRebalance_LR _ _ _ (by rw [height_node_eq]; omega) (by omega)]
          obtain ⟨hAvl, hres⟩ :=
            rotLR_spec a m b hl x r ⟨hAa, hAb, hhl, hb1, hb2⟩ hAr (by omega)
              (by omega)
          refine ⟨hAvl, ?_, ?_, ?_⟩
          · rw [hres, height_node_eq]; omega
          · rw [hres, height_node_eq]; omega
          · intro hx hy; rw [height_node_eq] at hx; omega
    · have hd : height r - height l = 2 := by omega
      cases r with
      | nil => exfalso; rw [height_nil_eq] at hd; omega
      | node c z d hrc =>
        rw [height_node_eq] at hd
        have hbfeq := balanceFactor_node_eq c z d hrc
        obtain ⟨hAc, hAd, hhr, hc1, hc2⟩ := hAr
        by_cases hbf : balanceFactor (node c z d hrc) ≤ 0
        · rw [removeRebalance_RR _ _ _ (by rw [height_node_eq]; omega) hbf]
          obtain ⟨hAvl, hh1, hh0⟩ :=
            rotL_spec l x c z d hrc hAl ⟨hAc, hAd, hhr, hc1, hc2⟩ (by omega)
              (by omega)
          rcases (by omega : height c - height d = 0 ∨ height c - height d = -1)
            with h0 | h1c
          · have hres := hh0 h0
            refine ⟨hAvl, ?_, ?_, ?_⟩
            · rw [hres, height_node_eq]; omega
            · rw [hres, height_node_eq]; omega
            · intro hx hy; rw [height_node_eq] at hy; omega
          · have hres := hh1 h1c
            refine ⟨hAvl, ?_, ?_, ?_⟩
            · rw [hres, height_node_eq]; omega
            · rw [hres, height_node_eq]; omega
            · intro hx hy; rw [height_node_eq] at hy; omega
        · rw [removeRebalance_RL _ _ _ (by rw [height_node_eq]; omega) (by omega)]
          obtain ⟨hAvl, hres⟩ :=
            rotRL_spec l x c z d hrc hAl ⟨hAc, hAd, hhr, hc1, hc2⟩ (by omega)
              (by omega)
          refine ⟨hAvl, ?_, ?_, ?_⟩
          · rw [hres, height_node_eq]; omega
          · rw [hres, height_node_eq]; omega
          · intro hx hy; rw [height_node_eq] at hy; omega

theorem removeNode_avl (t : TreeNode) : ∀ v : Transaction, Avl t →
    Avl (removeNode t v)
    ∧ (height (removeNode t v) = height t
       ∨ height (removeNode t v) = height t - 1) := by
  induction t with
  | nil => intro v _; exact ⟨trivial, Or.inl rfl⟩
  | node l x r hh ihl ihr =>
    intro v hA
    obtain ⟨hAl, hAr, hhh, hb1, hb2⟩ := hA
    have hrl := avl_height_lower l hAl
    have hrr := avl_height_lower r hAr
    rcases Int.lt_trichotomy v.Amount x.Amount with hlt | heq | hgt
    · rw [removeNode_lt l x r hh v hlt]
      obtain ⟨hA2, hh2⟩ := ihl v hAl
      obtain ⟨hAres, hlow, hhigh, hexact⟩ :=
        removeRebalance_spec (removeNode l v) x r hA2 hAr (by omega) (by omega)
      refine ⟨hAres, ?_⟩
      rw [height_node_eq]
      by_cases hsm2 : height (removeNode l v) - height r ≤ 1
        ∧ height r - height (removeNode l v) ≤ 1
      · have := hexact hsm2.1 hsm2.2
        omega
      · rcases not_and_or.mp hsm2 with hc | hc <;> omega
    · by_cases hid : x.ID = v.ID
      · cases l with
        | nil =>
          rw [removeNode_hit_nil_left x r hh v heq hid]
          refine ⟨hAr, ?_⟩
          rw [height_node_eq]
          rw [height_nil_eq] at hhh
          omega
        | node a m b hlh =>
          cases r with
          | nil =>
            rw [removeNode_hit_nil_right a m b hlh x hh v heq hid]
            refine ⟨hAl, ?_⟩
            rw [height_node_eq]
            rw [height_nil_eq] at hhh
            rw [height_node_eq] at hhh hrl ⊢
            omega
          | node c z dd hrh =>
            rw [removeNode_hit_two a m b hlh x c z dd hrh hh v heq hid]
            obtain ⟨hA2, hh2⟩ := ihr (findMinValue (node c z dd hrh)) hAr
            obtain ⟨hAres, hlow, hhigh, hexact⟩ :=
              removeRebalance_spec (node a m b hlh)
                (findMinValue (node c z dd hrh))
                (removeNode (node c z dd hrh) (findMinValue (node c z dd hrh)))
                hAl hA2 (by omega) (by omega)
            refine ⟨hAres, ?_⟩
            rw [height_node_eq]
            by_cases hsm2 : height (node a m b hlh)
                - height (removeNode (node c z dd hrh)
                    (findMinValue (node c z dd hrh))) ≤ 1
              ∧ height (removeNode (node c z dd hrh)
                    (findMinValue (node c z dd hrh)))
                - height (node a m b hlh) ≤ 1
            · have := hexact hsm2.1 hsm2.2
              omega
            · rcases not_and_or.mp hsm2 with hc | hc <;> omega
      · rw [removeNode_eq_ne l x r hh v heq hid]
        obtain ⟨hA2, hh2⟩ := ihr v hAr
        obtain ⟨hAres, hlow, hhigh, hexact⟩ :=
          removeRebalance_spec l x (removeNode r v) hAl hA2 (by omega) (by omega)
        refine ⟨hAres, ?_⟩
        rw [height_node_eq]
        by_cases hsm2 : height l - height (removeNode r v) ≤ 1
          ∧ height (removeNode r v) - height l ≤ 1
        · have := hexact hsm2.1 hsm2.2
          omega
        · rcases not_and_or.mp hsm2 with hc | hc <;> omega
    · rw [removeNode_gt l x r hh v hgt]
      obtain ⟨hA2, hh2⟩ := ihr v hAr
      obtain ⟨hAres, hlow, hhigh, hexact⟩ :=
        removeRebalance_spec l x (removeNode r v) hAl hA2 (by omega) (by omega)
      refine ⟨hAres, ?_⟩
      rw [height_node_eq]
      by_cases hsm2 : height l - height (removeNode r v) ≤ 1
        ∧ height (removeNode r v) - height l ≤ 1
      · have := hexact hsm2.1 hsm2.2
        omega
      · rcases not_and_or.mp hsm2 with hc | hc <;> omega

theorem insertNode_avl (t : TreeNode) : ∀ v : Transaction, Avl t →
    Avl (insertNode t v)
    ∧ (height (insertNode t v) = height t
       ∨ (height (insertNode t v) = height t + 1
          ∧ (0 ≤ height t →
              balanceFactor (insertNode t v)
                = if v.Amount ≤ (treeValue (insertNode t v)).Amount
                  then 1 else -1))) := by
  induction t with
  | nil =>
    intro v _
    refine ⟨⟨trivial, trivial, ?_, ?_, ?_⟩, Or.inr ⟨?_, fun h0 => ?_⟩⟩
    · rw [height_nil_eq]; omega
    · rw [height_nil_eq]; omega
    · rw [height_nil_eq]; omega
    · show height (node nil v nil 0) = height nil + 1
      rw [height_node_eq, height_nil_eq]; omega
    · rw [height_nil_eq] at h0; omega
  | node l x r hh ihl ihr =>
    intro v hA
    obtain ⟨hAl, hAr, hhh, hb1, hb2⟩ := hA
    have hrl := avl_height_lower l hAl
    have hrr := avl_height_lower r hAr
    by_cases hle : v.Amount ≤ x.Amount
    · rw [insertNode_le l x r hh v hle]
      obtain ⟨hAl2, hgrow⟩ := ihl v hAl
      have hlb : height (insertNode l v) = height l
          ∨ height (insertNode l v) = height l + 1 := by
        rcases hgrow with h | ⟨h, _⟩
        · exact Or.inl h
        · exact Or.inr h
      by_cases hcase : height (insertNode l v) - height r ≤ 1
      · rw [insertRebalance_no_rot _ _ _ _ (by omega) (by omega)]
        refine ⟨Avl_mkNode _ _ _ hAl2 hAr (by omega) (by omega), ?_⟩
        rw [height_mkNode, height_node_eq]
        rcases hgrow with hsame | ⟨hgrow1, hgfact⟩
        · left; omega
        · by_cases hmax : height r ≤ height l
          · right
            refine ⟨by omega, fun _ => ?_⟩
            rw [balanceFactor_mkNode, treeValue_mkNode, if_pos hle]
            omega
          · left; omega
      · have hd2 : height (insertNode l v) - height r = 2 := by omega
        rcases hgrow with hsame | ⟨hgrow1, hgfact⟩
        · exfalso; omega
        · have hbf := hgfact (by omega)
          cases hE : insertNode l v with
          | nil =>
            rw [hE, height_nil_eq] at hd2
            exfalso; omega
          | node a m b hla =>
            rw [hE] at hd2 hbf hAl2 hgrow1
            rw [height_node_eq] at hd2 hgrow1
            have htv : treeValue (node a m b hla) = m := rfl
            rw [htv, balanceFactor_node_eq] at hbf
            by_cases hvm : v.Amount ≤ m.Amount
            · rw [if_pos hvm] at hbf
              rw [insertRebalance_LL _ _ _ _ (by rw [height_node_eq]; omega)
                (by rw [htv]; exact hvm)]
              obtain ⟨hAvl, hh1, hh0⟩ :=
                rotR_spec a m b hla x r hAl2 hAr (by omega) (by omega)
              refine ⟨hAvl, Or.inl ?_⟩
              rw [hh1 (by omega), height_node_eq]
              omega
            · rw [if_neg hvm] at hbf
              rw [insertRebalance_LR _ _ _ _ (by rw [height_node_eq]; omega)
                (by rw [htv]; omega)]
              obtain ⟨hAvl, hres⟩ :=
                rotLR_spec a m b hla x r hAl2 hAr (by omega) (by omega)
              refine ⟨hAvl, Or.inl ?_⟩
              rw [hres, height_node_eq]
              omega
    · rw [insertNode_gt l x r hh v (by omega)]
      obtain ⟨hAr2, hgrow⟩ := ihr v hAr
      have hrb : height (insertNode r v) = height r
          ∨ height (insertNode r v) = height r + 1 := by
        rcases hgrow with h | ⟨h, _⟩
        · exact Or.inl h
        · exact Or.inr h
      by_cases hcase : height (insertNode r v) - height l ≤ 1
      · rw [insertRebalance_no_rot _ _ _ _ (by omega) (by omega)]
        refine ⟨Avl_mkNode _ _ _ hAl hAr2 (by omega) (by omega), ?_⟩
        rw [height_mkNode, height_node_eq]
        rcases hgrow with hsame | ⟨hgrow1, hgfact⟩
        · left; omega
        · by_cases hmax : height l ≤ height r
          · right
            refine ⟨by omega, fun _ => ?_⟩
            rw [balanceFactor_mkNode, treeValue_mkNode, if_neg hle]
            omega
          · left; omega
      · have hd2 : height (insertNode r v) - height l = 2 := by omega
        rcases hgrow with hsame | ⟨hgrow1, hgfact⟩
        · exfalso; omega
        · have hbf := hgfact (by omega)
          cases hE : insertNode r v with
          | nil =>
            rw [hE, height_nil_eq] at hd2
            exfalso; omega
          | node c z d hrc =>
            rw [hE] at hd2 hbf hAr2 hgrow1
            rw [height_node_eq] at hd2 hgrow1
            have htv : treeValue (node c z d hrc) = z := rfl
            rw [htv, balanceFactor_node_eq] at hbf
            by_cases hvz : v.Amount ≤ z.Amount
            · rw [if_pos hvz] at hbf
              rw [insertRebalance_RL _ _ _ _ (by rw [height_node_eq]; omega)
                (by rw [htv]; exact hvz)]
              obtain ⟨hAvl, hres⟩ :=
                rotRL_spec l x c z d hrc hAl hAr2 (by omega) (by omega)
              refine ⟨hAvl, Or.inl ?_⟩
              rw [hres, height_node_eq]
              omega
            · rw [if_neg hvz] at hbf
              rw [insertRebalance_RR _ _ _ _ (by rw [height_node_eq]; omega)
                (by rw [htv]; omega)]
              obtain ⟨hAvl, hh1, hh0⟩ :=
                rotL_spec l x c z d hrc hAl hAr2 (by omega) (by omega)
              refine ⟨hAvl, Or.inl ?_⟩
              rw [hh1 (by omega), height_node_eq]
              omega

end TreeNode

/-- The order-book trees the program can reach: the empty book, and
anything obtained from a reachable book by the `Insert` of the ingestion
loop or the `Remove` of the matching loop. -/
inductive Reachable : TreeNode → Prop where
  | empty : Reachable .nil
  | insertStep (t : TreeNode) (v : Transaction) :
      Reachable t → Reachable (t.Insert v)
  | removeStep (t : TreeNode) (v : Transaction) :
      Reachable t → Reachable (t.Remove v)

/-- Claim C3: after every `Insert` and every `Remove` on the order-book
tree — that is, for every tree reachable from the empty book — every
node satisfies `height(node) = 1 + max(height left, height right)` (an
absent subtree having height -1, a leaf height 0) and the AVL balance
condition: the two subtree heights differ by at most 1 at every node. -/
theorem claim_C3_avl_invariant (t : TreeNode) (h : Reachable t) : t.Avl := by
  induction h with
  | empty => trivial
  | insertStep t v _ ih => exact (TreeNode.insertNode_avl t v ih).1
  | removeStep t v _ ih => exact (TreeNode.removeNode_avl t v ih).1

/-- Witness for C3: the invariant evaluated on a concrete
insert-insert-remove history. -/
theorem claim_C3_avl_invariant_witness :
    TreeNode.Avl (TreeNode.Remove
      (TreeNode.Insert (TreeNode.Insert .nil ⟨"a", "BUY", 5⟩) ⟨"b", "BUY", 3⟩)
      ⟨"a", "BUY", 5⟩) :=
  claim_C3_avl_invariant _
    (Reachable.removeStep _ _ (Reachable.insertStep _ _
      (Reachable.insertStep _ _ Reachable.empty)))

end StockSim